import Mathlib

/-!
Verification development for the walkshed-generation pipeline
(QGIS_walkshed_automation.py and standalone_walkshed_generator.py).

The two scripts orchestrate external geometry algorithms (buffer, clip,
split-lines-by-length, service area, convex hull, concave hull, dissolve,
merge).  The orchestration logic (batching, per-route loop, error skipping,
saving, the final merge) is embedded from the Python source; the external
geometry algorithms, whose implementations are not part of the repository,
are modelled from the specification of their contracts.
-/

namespace Walkshed

/-- A covered grid cell; regions of the plane are modelled as finite sets of
cells, so two geometries cover the same point set iff the regions are equal. -/
abbrev Cell := ℤ × ℤ

/-- A region of the plane: the set of cells a geometry covers. -/
abbrev Region := Finset Cell

/-- Modelled from the spec: the clip operation used by the Hull Builder
(step 7 of create_walksheds: clip the convex hull with the concave hull).
Clipping INPUT by OVERLAY keeps exactly the covered points lying in both. -/
def clipRegion (input overlay : Region) : Region := input ∩ overlay

/-- Area of a region, measured as the number of covered cells. -/
def regionArea (r : Region) : ℕ := r.card

/-- Modelled from the spec: the Dissolver unions all walkshed polygons of a
route (step 8 of create_walksheds, native dissolve) into one covered set. -/
def dissolveUnion (ps : List Region) : Region := ps.foldr (· ∪ ·) ∅

/-- Modelled from the spec: the batch merge (native mergevectorlayers over
batch outputs); the covered area of the merged output is the union of the
covered areas of the inputs. -/
def mergeAll (batches : List Region) : Region := batches.foldr (· ∪ ·) ∅

/-- Fuel-bounded batch slicing; with fuel at least the list length it
produces the consecutive slices `routes[i : i + k]` for i = 0, k, 2k, ... -/
def batchChunks (k : ℕ) : ℕ → List α → List (List α)
  | _, [] => []
  | 0, _ :: _ => []
  | fuel + 1, x :: xs => (x :: xs.take (k - 1)) :: batchChunks k fuel (xs.drop (k - 1))

/-- From the source (process_routes): routes are processed in consecutive
slices `routes[i : i + batch_size]` for i = 0, k, 2k, ...; this function
produces that list of slices. -/
def batchSplit (k : ℕ) (l : List α) : List (List α) := batchChunks k l.length l

/-- From the source (process_routes): a route with a successful outcome
contributes its polygons; a failed route is skipped.  The final merge output
list is the successful results in route order. -/
def finalMergeList (outcome : α → Option β) (routes : List α) : List β :=
  routes.filterMap outcome

/-- From the source (process_routes): the per-route loop.  Each route's
pipeline outcome is either a result or a failure; a failure is recorded as a
skipped-route warning and the loop continues with the next route.  Returns
the collected results and the list of skipped routes. -/
def processRoutesLoop (outcome : α → Option β) : List α → List β × List α
  | [] => ([], [])
  | r :: rs =>
      let rest := processRoutesLoop outcome rs
      match outcome r with
      | some s => (s :: rest.1, rest.2)
      | none => (rest.1, r :: rest.2)

/-- Modelled from the spec: the Hull Builder produces no polygon when the
service area has fewer than 3 points; otherwise it clips the convex hull
with the concave hull of the point set. -/
def hullBuilderStep (convex concave : Finset Cell → Region) (pts : Finset Cell) :
    Option Region :=
  if pts.card < 3 then none else some (clipRegion (convex pts) (concave pts))

/-- From the source (save_batch_results): with a non-empty output list a
single merge-write attempt is made; on an exception an error is printed and
False is returned, with no retry.  With an empty output list the function
returns nothing and makes no attempt.  writeOk n tells whether the n-th
write attempt at this path would succeed; the second component counts the
attempts actually made. -/
def saveBatchResults (outputList : List α) (writeOk : ℕ → Bool) : Option Bool × ℕ :=
  match outputList with
  | [] => (none, 0)
  | _ :: _ => if writeOk 0 then (some true, 1) else (some false, 1)

/-- From the source: each batch save writes to its own timestamped path;
storage maps paths to contents and is updated only at the written path and
only on success. -/
def storeAfterSave (store : String → Option α) (path : String) (content : α) (ok : Bool) :
    String → Option α :=
  if ok then (fun p => if p = path then some content else store p) else store

/-- From the source (process_routes, batch script): the loop body assigns the
local holding the output name stem once per batch iteration; before the loop
the local is unassigned. -/
def runBatchLoop (stem : String) (batches : List (List α)) : Option String :=
  batches.foldl (fun _ _ => some (if stem = "" then "" else stem ++ "_")) none

/-- From the source (process_routes, batch script): after the batch loop the
final merge reads the loop-assigned local to build the three final output
names; reading it when no batch iteration ran raises an unbound-local
error. -/
def finalMergeNames (stem : String) (routes : List String) : Except String (List String) :=
  match runBatchLoop stem (batchSplit 5 routes) with
  | none => Except.error "UnboundLocalError: local variable referenced before assignment"
  | some p =>
      Except.ok [p ++ "walksheds_all.gpkg", p ++ "dissolved_all.gpkg",
        p ++ "service_area_lines_all.gpkg"]

/-- Modelled from the spec: the Graph Builder's split step (the external
split-lines-by-length algorithm, LENGTH = L): a polyline of length N is
split into ⌈N/L⌉ equal-length sub-segments. -/
def splitLineByLength (N L : ℚ) : List ℚ :=
  List.replicate (⌈N / L⌉).toNat (N / (((⌈N / L⌉).toNat : ℕ) : ℚ))

/-- A planar point with rational coordinates. -/
structure Pt where
  x : ℚ
  y : ℚ
deriving DecidableEq

/-- A network edge with its segment geometry. -/
structure Seg where
  p : Pt
  q : Pt
deriving DecidableEq

/-- Squared Euclidean distance between two points. -/
def distSq (a b : Pt) : ℚ := (a.x - b.x) ^ 2 + (a.y - b.y) ^ 2

/-- Squared distance from a point to a segment: the distance to the closest
point of the segment, with the projection parameter clamped to [0, 1]. -/
def distSqPointSeg (c : Pt) (s : Seg) : ℚ :=
  let dx := s.q.x - s.p.x
  let dy := s.q.y - s.p.y
  let len2 := dx ^ 2 + dy ^ 2
  if len2 = 0 then distSq c s.p
  else
    let t := ((c.x - s.p.x) * dx + (c.y - s.p.y) * dy) / len2
    let tc := max 0 (min 1 t)
    distSq c ⟨s.p.x + tc * dx, s.p.y + tc * dy⟩

/-- A segment meets the union of disks of radius r around the seed points
iff its distance to some seed is at most r. -/
def segInRange (seeds : List Pt) (r : ℚ) (s : Seg) : Bool :=
  seeds.any (fun c => decide (distSqPointSeg c s ≤ r ^ 2))

/-- Modelled from the spec: the Network Reducer (the buffer-by-D*M-and-clip
steps, run through external algorithms) keeps exactly the edges that
intersect the union of disks of radius D*M centered on the seeds, and
returns an empty subgraph (not an error) when nothing is in range. -/
def reduceNetwork (seeds : List Pt) (D M : ℚ) : List Seg → List Seg
  | [] => []
  | e :: es =>
      if segInRange seeds (D * M) e then e :: reduceNetwork seeds D M es
      else reduceNetwork seeds D M es

/-- A network edge between two node ids with its traversal cost (length). -/
structure NetEdge where
  a : ℕ
  b : ℕ
  w : ℚ
deriving DecidableEq

/-- Functional update of a distance labelling at one node. -/
def updateDist (dist : ℕ → Option ℚ) (v : ℕ) (d : ℚ) : ℕ → Option ℚ :=
  fun x => if x = v then some d else dist x

/-- Modelled from the spec: one directed relaxation of the bounded
multi-source shortest-path search — extend the label of u across an edge of
weight w to v, never beyond the budget D, and only when it improves v. -/
def relaxDir (D : ℚ) (u v : ℕ) (w : ℚ) (dist : ℕ → Option ℚ) : ℕ → Option ℚ :=
  match dist u with
  | none => dist
  | some du =>
      if du + w ≤ D then
        match dist v with
        | none => updateDist dist v (du + w)
        | some dv => if du + w < dv then updateDist dist v (du + w) else dist
      else dist

/-- Relax an undirected edge in both directions (the search runs with
both-directions traversal, DEFAULT_DIRECTION = 2). -/
def relaxEdge (D : ℚ) (dist : ℕ → Option ℚ) (e : NetEdge) : ℕ → Option ℚ :=
  relaxDir D e.b e.a e.w (relaxDir D e.a e.b e.w dist)

/-- One relaxation round over every edge of the subgraph. -/
def relaxAll (D : ℚ) (es : List NetEdge) (dist : ℕ → Option ℚ) : ℕ → Option ℚ :=
  es.foldl (relaxEdge D) dist

/-- Every seed starts at cumulative distance 0; other nodes are unreached. -/
def initDist (seeds : List ℕ) : ℕ → Option ℚ :=
  fun v => if v ∈ seeds then some 0 else none

/-- Modelled from the spec: the Service Area Search labels each reached node
with its cumulative network distance from the nearest seed, by repeated
budget-bounded relaxation rounds from the seed labelling. -/
def serviceAreaSearch (es : List NetEdge) (seeds : List ℕ) (D : ℚ) (rounds : ℕ) :
    ℕ → Option ℚ :=
  (relaxAll D es)^[rounds] (initDist seeds)

/-- Cumulative distance accumulated after the first i edges of a path. -/
def pathCumDist (p : List NetEdge) (i : ℕ) : ℚ :=
  ((p.map NetEdge.w).take i).sum

/-- The budget invariant: every label is between 0 and the budget D. -/
def WithinBudget (D : ℚ) (dist : ℕ → Option ℚ) : Prop :=
  ∀ v d, dist v = some d → 0 ≤ d ∧ d ≤ D

/-- Folding union over an appended list unions the two folds. -/
theorem foldr_union_append (ps qs : List Region) :
    (ps ++ qs).foldr (· ∪ ·) ∅ = (ps.foldr (· ∪ ·) ∅) ∪ (qs.foldr (· ∪ ·) ∅) := by
  induction ps with
  | nil => simp
  | cons p ps ih =>
      simp only [List.cons_append, List.foldr_cons, ih, Finset.union_assoc]

/-- C2: the walkshed polygon is the intersection of the convex hull with the
concave hull, so it covers only points inside the convex hull of the service
area's point set, and its area is at most the convex hull's area. -/
theorem walkshed_within_convex_hull (convex concave : Region) :
    clipRegion convex concave ⊆ convex ∧
    regionArea (clipRegion convex concave) ≤ regionArea convex :=
  ⟨Finset.inter_subset_left, Finset.card_le_card Finset.inter_subset_left⟩

/-- C7: the per-route dissolve union is idempotent: dissolving the dissolved
result again covers exactly the same point set, and duplicated inputs add no
geometry. -/
theorem dissolve_idempotent (ps : List Region) :
    dissolveUnion [dissolveUnion ps] = dissolveUnion ps ∧
    dissolveUnion (ps ++ ps) = dissolveUnion ps := by
  constructor
  · simp [dissolveUnion]
  · simp only [dissolveUnion, foldr_union_append, Finset.union_self]

/-- C8: merging the batch outputs in any permutation order yields the same
covered area. -/
theorem mergeAll_perm_invariant (b b' : List Region) (h : b.Perm b') :
    mergeAll b = mergeAll b' := by
  induction h with
  | nil => rfl
  | cons x _ ih => simp only [mergeAll, List.foldr_cons] at ih ⊢; rw [ih]
  | swap x y l =>
      simp only [mergeAll, List.foldr_cons]
      rw [← Finset.union_assoc, Finset.union_comm y x, Finset.union_assoc]
  | trans _ _ ih₁ ih₂ => exact ih₁.trans ih₂

/-- Witness for C8 at a concrete pair of permuted batch lists. -/
theorem mergeAll_perm_invariant_witness :
    mergeAll [({(0, 0)} : Region), {(1, 1)}, {(2, 2)}] =
      mergeAll [({(1, 1)} : Region), {(0, 0)}, {(2, 2)}] :=
  mergeAll_perm_invariant _ _ (List.Perm.swap _ _ _)

/-- Slicing the empty route list gives no batches, whatever the fuel. -/
theorem batchChunks_nil (k fuel : ℕ) : batchChunks k fuel ([] : List α) = [] := by
  cases fuel <;> rfl

/-- Batch slicing with batch size 5 loses and reorders nothing. -/
theorem batchChunks_flatten (fuel : ℕ) : ∀ l : List α, l.length ≤ fuel →
    (batchChunks 5 fuel l).flatten = l := by
  induction fuel with
  | zero =>
      intro l h
      cases l with
      | nil => rfl
      | cons x xs => simp at h
  | succ fuel ih =>
      intro l h
      cases l with
      | nil => rfl
      | cons x xs =>
          show ((x :: xs.take 4) :: batchChunks 5 fuel (xs.drop 4)).flatten = x :: xs
          rw [List.flatten_cons]
          rw [ih (xs.drop 4) (by simp only [List.length_drop]; simp only [List.length_cons] at h; omega)]
          simp [List.take_append_drop]

/-- The number of batches of size 5 is the length divided by 5, rounded up. -/
theorem batchChunks_length (fuel : ℕ) : ∀ l : List α, l.length ≤ fuel →
    (batchChunks 5 fuel l).length = (l.length + 4) / 5 := by
  induction fuel with
  | zero =>
      intro l h
      cases l with
      | nil => rw [batchChunks_nil]; norm_num
      | cons x xs => simp at h
  | succ fuel ih =>
      intro l h
      cases l with
      | nil => rw [batchChunks_nil]; norm_num
      | cons x xs =>
          show ((x :: xs.take 4) :: batchChunks 5 fuel (xs.drop 4)).length = _
          rw [List.length_cons,
            ih (xs.drop 4) (by simp only [List.length_drop]; simp only [List.length_cons] at h; omega)]
          simp only [List.length_drop, List.length_cons]
          omega

/-- Every batch of size 5 has between 1 and 5 routes. -/
theorem batchChunks_mem_length (fuel : ℕ) : ∀ l : List α, l.length ≤ fuel →
    ∀ b ∈ batchChunks 5 fuel l, 1 ≤ b.length ∧ b.length ≤ 5 := by
  induction fuel with
  | zero =>
      intro l h
      cases l with
      | nil => simp [batchChunks_nil]
      | cons x xs => simp at h
  | succ fuel ih =>
      intro l h
      cases l with
      | nil => simp [batchChunks_nil]
      | cons x xs =>
          intro b hb
          have hb' : b ∈ (x :: xs.take 4) :: batchChunks 5 fuel (xs.drop 4) := hb
          rcases List.mem_cons.mp hb' with hhd | htl
          · subst hhd
            have : (xs.take 4).length ≤ 4 := List.length_take_le 4 xs
            simp only [List.length_cons]
            omega
          · exact ih (xs.drop 4)
              (by simp only [List.length_drop]; simp only [List.length_cons] at h; omega) b htl

/-- Every batch except the last has exactly 5 routes. -/
theorem batchChunks_dropLast (fuel : ℕ) : ∀ l : List α, l.length ≤ fuel →
    ∀ b ∈ (batchChunks 5 fuel l).dropLast, b.length = 5 := by
  induction fuel with
  | zero =>
      intro l h
      cases l with
      | nil => simp [batchChunks_nil]
      | cons x xs => simp at h
  | succ fuel ih =>
      intro l h
      cases l with
      | nil => simp [batchChunks_nil]
      | cons x xs =>
          intro b hb
          have hb' : b ∈ ((x :: xs.take 4) :: batchChunks 5 fuel (xs.drop 4)).dropLast := hb
          by_cases hrest : batchChunks 5 fuel (xs.drop 4) = []
          · rw [hrest] at hb'
            simp at hb'
          · rw [List.dropLast_cons_of_ne_nil hrest] at hb'
            rcases List.mem_cons.mp hb' with hhd | htl
            · subst hhd
              have hdrop : xs.drop 4 ≠ [] := by
                intro hd
                exact hrest (hd ▸ batchChunks_nil 5 fuel)
              have hxs : 4 ≤ xs.length := by
                by_contra hlt
                push_neg at hlt
                exact hdrop (List.drop_eq_nil_of_le (by omega))
              have htake : (xs.take 4).length = 4 := by
                rw [List.length_take]
                omega
              simp only [List.length_cons, htake]
            · exact ih (xs.drop 4)
                (by simp only [List.length_drop]; simp only [List.length_cons] at h; omega) b htl

/-- The final merge has one entry per route minus the skipped routes. -/
theorem length_finalMergeList (outcome : α → Option β) (routes : List α) :
    (finalMergeList outcome routes).length =
      routes.length - routes.countP (fun r => (outcome r).isNone) := by
  induction routes with
  | nil => rfl
  | cons r rs ih =>
      have hle : rs.countP (fun x => (outcome x).isNone) ≤ rs.length :=
        List.countP_le_length _
      simp only [finalMergeList, List.filterMap_cons, List.countP_cons,
        List.length_cons] at ih ⊢
      cases h : outcome r with
      | none =>
          simp only [h, Option.isNone_none, eq_self_iff_true, if_true, ih]
          omega
      | some s =>
          simp only [h, Option.isNone_some, Bool.false_eq_true, if_false,
            List.length_cons, ih]
          omega

/-- C5: the Batch Orchestrator splits the sorted route list into consecutive
batches of 5 (a smaller last batch allowed): concatenating the batches gives
back the route list, the batch count is the route count divided by 5 rounded
up, every batch has at most 5 routes, every non-final batch has exactly 5;
12 routes yield batches of sizes 5, 5 and 2; and the final merge holds one
result per route minus the skipped routes. -/
theorem batchSplit_spec (l : List α) (outcome : α → Option β) (routes : List α) :
    (batchSplit 5 l).flatten = l ∧
    (batchSplit 5 l).length = (l.length + 4) / 5 ∧
    (∀ b ∈ batchSplit 5 l, 1 ≤ b.length ∧ b.length ≤ 5) ∧
    (∀ b ∈ (batchSplit 5 l).dropLast, b.length = 5) ∧
    (batchSplit 5 (List.range 12)).map List.length = [5, 5, 2] ∧
    (finalMergeList outcome routes).length =
      routes.length - routes.countP (fun r => (outcome r).isNone) :=
  ⟨batchChunks_flatten l.length l le_rfl, batchChunks_length l.length l le_rfl,
    batchChunks_mem_length l.length l le_rfl, batchChunks_dropLast l.length l le_rfl,
    by decide, length_finalMergeList outcome routes⟩

/-- Witness for C5 at a concrete route list with one failing route. -/
theorem batchSplit_spec_witness :
    ((batchSplit 5 (List.range 7)).flatten = List.range 7 ∧
      (batchSplit 5 (List.range 7)).length = 2) ∧
    ([0, 1, 2, 3, 4] : List ℕ).length = 5 ∧
    (finalMergeList (fun n : ℕ => if n = 3 then none else some n) (List.range 7)).length = 6 := by
  have h := batchSplit_spec (List.range 7)
    (fun n : ℕ => if n = 3 then none else some n) (List.range 7)
  refine ⟨⟨h.1, ?_⟩, ?_, ?_⟩
  · rw [h.2.1]
    decide
  · exact h.2.2.2.1 [0, 1, 2, 3, 4] (by decide)
  · rw [h.2.2.2.2.2]
    decide

/-- The collected results are exactly the successful outcomes in route order. -/
theorem processRoutesLoop_fst (outcome : α → Option β) :
    ∀ routes : List α, (processRoutesLoop outcome routes).1 = routes.filterMap outcome := by
  intro routes
  induction routes with
  | nil => rfl
  | cons r rs ih =>
      simp only [processRoutesLoop, List.filterMap_cons]
      cases h : outcome r with
      | none => simpa [h] using ih
      | some s => simpa [h] using ih

/-- The skipped-route list is exactly the routes whose outcome failed. -/
theorem processRoutesLoop_snd (outcome : α → Option β) :
    ∀ routes : List α,
      (processRoutesLoop outcome routes).2 = routes.filter (fun x => (outcome x).isNone) := by
  intro routes
  induction routes with
  | nil => rfl
  | cons r rs ih =>
      simp only [processRoutesLoop, List.filter_cons]
      cases h : outcome r with
      | none => simpa [h] using ih
      | some s => simpa [h] using ih

/-- C6: a route failing at any pipeline stage (in particular a hull over
fewer than 3 points) is skipped: it appears in the skipped list, contributes
nothing to the outputs, and the remaining routes are processed exactly as if
the failed route were absent. -/
theorem processRoutes_skips_failures (outcome : α → Option β) (routes : List α)
    (r : α) (rs : List α) (hfail : outcome r = none)
    (convex concave : Finset Cell → Region) (pts : Finset Cell) (hpts : pts.card < 3) :
    (processRoutesLoop outcome routes).1 = routes.filterMap outcome ∧
    (processRoutesLoop outcome routes).2 = routes.filter (fun x => (outcome x).isNone) ∧
    (processRoutesLoop outcome (r :: rs)).1 = (processRoutesLoop outcome rs).1 ∧
    (processRoutesLoop outcome (r :: rs)).2 = r :: (processRoutesLoop outcome rs).2 ∧
    hullBuilderStep convex concave pts = none := by
  refine ⟨processRoutesLoop_fst outcome routes, processRoutesLoop_snd outcome routes,
    ?_, ?_, if_pos hpts⟩
  · simp [processRoutesLoop, hfail]
  · simp [processRoutesLoop, hfail]

/-- Witness for C6 at a concrete failing route and degenerate point set. -/
theorem processRoutes_skips_failures_witness :
    (processRoutesLoop (fun n : ℕ => if n % 2 = 0 then some n else none) [1, 2]).1 = [2] ∧
    (processRoutesLoop (fun n : ℕ => if n % 2 = 0 then some n else none) [1, 2]).2 = [1] ∧
    hullBuilderStep (fun _ => ∅) (fun _ => ∅) ({(0, 0)} : Finset Cell) = none := by
  have h := processRoutes_skips_failures (fun n : ℕ => if n % 2 = 0 then some n else none)
    [1, 2] 1 [2] (by decide) (fun _ => ∅) (fun _ => ∅) ({(0, 0)} : Finset Cell) (by decide)
  exact ⟨h.1.trans (by decide), h.2.1.trans (by decide), h.2.2.2.2⟩

/-- C9 counterexample: a write that fails on its first attempt and would
succeed on a retry is not retried — only one attempt is made and the save
reports failure, contradicting the claimed retried-exactly-once behavior. -/
theorem saveBatch_retry_counterexample :
    ¬ ((saveBatchResults [(0 : ℕ)] (fun n => decide (1 ≤ n))).2 = 2 ∧
       (saveBatchResults [(0 : ℕ)] (fun n => decide (1 ≤ n))).1 = some true) := by
  decide

/-- C9 (amended): a failed batch write is attempted exactly once (never
retried); the failure surfaces as a False return (the failed-batch report),
and the stored outputs of every other path remain unchanged. -/
theorem saveBatch_single_attempt (outputList : List α) (writeOk : ℕ → Bool)
    (hne : outputList ≠ []) (hfail : writeOk 0 = false)
    (store : String → Option β) (path : String) (content : β) :
    (saveBatchResults outputList writeOk).2 = 1 ∧
    (saveBatchResults outputList writeOk).1 = some false ∧
    (∀ ok p, p ≠ path → storeAfterSave store path content ok p = store p) ∧
    storeAfterSave store path content false = store := by
  cases outputList with
  | nil => exact absurd rfl hne
  | cons x xs =>
      refine ⟨?_, ?_, ?_, rfl⟩
      · simp [saveBatchResults, hfail]
      · simp [saveBatchResults, hfail]
      · intro ok p hp
        cases ok with
        | false => rfl
        | true => exact if_neg hp

/-- Witness for C9 amended at a concrete failing write. -/
theorem saveBatch_single_attempt_witness :
    (saveBatchResults [(0 : ℕ)] (fun _ => false)).2 = 1 ∧
    (saveBatchResults [(0 : ℕ)] (fun _ => false)).1 = some false ∧
    storeAfterSave (fun _ => (none : Option ℕ)) "a" 0 true "b" = none := by
  have h := saveBatch_single_attempt [(0 : ℕ)] (fun _ => false) (by decide) rfl
    (fun _ => (none : Option ℕ)) "a" 0
  exact ⟨h.1, h.2.1, (h.2.2.1 true "b" (by decide)).trans rfl⟩

/-- A fold that ignores its accumulator and always assigns the same value
yields that value on any non-empty list. -/
theorem foldl_const_ne_nil {β γ : Type} (c : γ) : ∀ (l : List β) (a : γ), l ≠ [] →
    l.foldl (fun _ _ => c) a = c := by
  intro l
  induction l with
  | nil => intro a h; exact absurd rfl h
  | cons b bs ih =>
      intro a _
      rw [List.foldl_cons]
      cases bs with
      | nil => rfl
      | cons b2 bs2 => exact ih c (by simp)

/-- A non-empty route list yields at least one batch. -/
theorem batchSplit_ne_nil (r : α) (rs : List α) : batchSplit 5 (r :: rs) ≠ [] := by
  show batchChunks 5 (rs.length + 1) (r :: rs) ≠ []
  simp [batchChunks]

/-- C10: with zero routes the per-batch loop never runs, so the final merge
reads the unassigned output-stem local and fails with an unbound-local
error; with any non-empty route set the final merge step completes. -/
theorem finalMerge_unbound_localvar (stem : String) (routes : List String)
    (h : routes ≠ []) :
    finalMergeNames stem [] =
      Except.error "UnboundLocalError: local variable referenced before assignment" ∧
    ∃ names, finalMergeNames stem routes = Except.ok names := by
  constructor
  · rfl
  · cases routes with
    | nil => exact absurd rfl h
    | cons r rs =>
        have hb := foldl_const_ne_nil (some (if stem = "" then "" else stem ++ "_"))
          (batchSplit 5 (r :: rs)) none (batchSplit_ne_nil r rs)
        refine ⟨[(if stem = "" then "" else stem ++ "_") ++ "walksheds_all.gpkg",
          (if stem = "" then "" else stem ++ "_") ++ "dissolved_all.gpkg",
          (if stem = "" then "" else stem ++ "_") ++ "service_area_lines_all.gpkg"], ?_⟩
        unfold finalMergeNames runBatchLoop
        rw [hb]

/-- Witness for C10 at a concrete one-route input. -/
theorem finalMerge_unbound_localvar_witness :
    finalMergeNames "test" [] =
      Except.error "UnboundLocalError: local variable referenced before assignment" ∧
    ∃ names, finalMergeNames "test" ["7"] = Except.ok names :=
  ⟨(finalMerge_unbound_localvar "test" ["7"] (by decide)).1,
    (finalMerge_unbound_localvar "test" ["7"] (by decide)).2⟩

/-- C3: splitting a polyline of positive length N with maximum segment
length L > 0 yields only pieces of length at most L, exactly ⌈N/L⌉ of them,
and their lengths sum exactly to N. -/
theorem splitLine_pieces (N L : ℚ) (hN : 0 < N) (hL : 0 < L) :
    (∀ x ∈ splitLineByLength N L, x ≤ L) ∧
    (splitLineByLength N L).length = (⌈N / L⌉).toNat ∧
    (splitLineByLength N L).sum = N := by
  have hq : 0 < N / L := div_pos hN hL
  have hceil : 0 < ⌈N / L⌉ := Int.ceil_pos.mpr hq
  have hkk : (((⌈N / L⌉).toNat : ℤ)) = ⌈N / L⌉ := Int.toNat_of_nonneg (le_of_lt hceil)
  have hkpos : 0 < (⌈N / L⌉).toNat := by omega
  have hkQ : (((⌈N / L⌉).toNat : ℕ) : ℚ) ≠ 0 := by
    exact_mod_cast Nat.pos_iff_ne_zero.mp hkpos
  have hkQpos : (0 : ℚ) < (((⌈N / L⌉).toNat : ℕ) : ℚ) := by exact_mod_cast hkpos
  have hle : N / L ≤ (((⌈N / L⌉).toNat : ℕ) : ℚ) := by
    have h1 := Int.le_ceil (N / L)
    rw [← hkk] at h1
    exact_mod_cast h1
  refine ⟨?_, ?_, ?_⟩
  · intro x hx
    rw [List.eq_of_mem_replicate hx]
    rw [div_le_iff hkQpos]
    have h2 := (div_le_iff hL).mp hle
    linarith
  · simp [splitLineByLength]
  · unfold splitLineByLength
    rw [List.sum_replicate, nsmul_eq_mul, mul_comm, div_mul_cancel₀ N hkQ]

/-- Witness for C3 at N = 250, L = 100 (three pieces of 250/3 each). -/
theorem splitLine_pieces_witness :
    ((250 : ℚ) / 3 ≤ 100) ∧
    (splitLineByLength 250 100).length = 3 ∧
    (splitLineByLength 250 100).sum = 250 := by
  have h := splitLine_pieces 250 100 (by norm_num) (by norm_num)
  have hc : (⌈(250 : ℚ) / 100⌉) = 3 := by
    rw [Int.ceil_eq_iff]
    constructor <;> norm_num
  have hk : (⌈(250 : ℚ) / 100⌉).toNat = 3 := by rw [hc]; rfl
  refine ⟨h.1 (250 / 3) ?_, ?_, h.2.2⟩
  · show (250 : ℚ) / 3 ∈ splitLineByLength 250 100
    unfold splitLineByLength
    rw [hk]
    rw [List.mem_replicate]
    norm_num
  · rw [h.2.1, hk]

/-- Membership characterization of the reduced network. -/
theorem mem_reduceNetwork (seeds : List Pt) (D M : ℚ) (edges : List Seg) (e : Seg) :
    e ∈ reduceNetwork seeds D M edges ↔
      e ∈ edges ∧ ∃ c ∈ seeds, distSqPointSeg c e ≤ (D * M) ^ 2 := by
  have hchar : ∀ s : Seg, segInRange seeds (D * M) s = true ↔
      ∃ c ∈ seeds, distSqPointSeg c s ≤ (D * M) ^ 2 := by
    intro s
    simp [segInRange, List.any_eq_true]
  induction edges with
  | nil => simp [reduceNetwork]
  | cons a es ih =>
      rw [reduceNetwork]
      by_cases h : segInRange seeds (D * M) a = true
      · rw [if_pos h]
        simp only [List.mem_cons]
        constructor
        · rintro (rfl | he)
          · exact ⟨Or.inl rfl, (hchar e).mp h⟩
          · obtain ⟨he', hr⟩ := ih.mp he
            exact ⟨Or.inr he', hr⟩
        · rintro ⟨rfl | he, hr⟩
          · exact Or.inl rfl
          · exact Or.inr (ih.mpr ⟨he, hr⟩)
      · rw [if_neg h]
        constructor
        · intro he
          obtain ⟨he', hr⟩ := ih.mp he
          exact ⟨List.mem_cons_of_mem _ he', hr⟩
        · rintro ⟨hmem, hr⟩
          rcases List.mem_cons.mp hmem with rfl | he
          · exact absurd ((hchar e).mpr hr) h
          · exact ih.mpr ⟨he, hr⟩

/-- C4: the Network Reducer returns exactly the subgraph of edges meeting
the union of disks of radius D*M around the seeds; when no edge is in range
it returns the empty subgraph rather than failing. -/
theorem reduceNetwork_spec (seeds : List Pt) (D M : ℚ) (edges : List Seg) :
    (∀ e, e ∈ reduceNetwork seeds D M edges ↔
      e ∈ edges ∧ ∃ c ∈ seeds, distSqPointSeg c e ≤ (D * M) ^ 2) ∧
    ((∀ e ∈ edges, ∀ c ∈ seeds, ¬ distSqPointSeg c e ≤ (D * M) ^ 2) →
      reduceNetwork seeds D M edges = []) := by
  refine ⟨mem_reduceNetwork seeds D M edges, ?_⟩
  intro hnone
  cases hr : reduceNetwork seeds D M edges with
  | nil => rfl
  | cons e es' =>
      have he : e ∈ reduceNetwork seeds D M edges := by
        rw [hr]
        exact List.mem_cons_self e es'
      obtain ⟨hmem, c, hc, hd⟩ := (mem_reduceNetwork seeds D M edges e).mp he
      exact absurd hd (hnone e hmem c hc)

/-- Witness for C4: a near edge is kept, a far-only network reduces to the
empty subgraph. -/
theorem reduceNetwork_spec_witness :
    (⟨⟨0, 0⟩, ⟨1, 0⟩⟩ : Seg) ∈
      reduceNetwork [(⟨0, 0⟩ : Pt)] 1 1 [(⟨⟨0, 0⟩, ⟨1, 0⟩⟩ : Seg)] ∧
    reduceNetwork [(⟨0, 0⟩ : Pt)] 1 1 [(⟨⟨10, 0⟩, ⟨11, 0⟩⟩ : Seg)] = [] := by
  have h1 := reduceNetwork_spec [(⟨0, 0⟩ : Pt)] 1 1 [(⟨⟨0, 0⟩, ⟨1, 0⟩⟩ : Seg)]
  have h2 := reduceNetwork_spec [(⟨0, 0⟩ : Pt)] 1 1 [(⟨⟨10, 0⟩, ⟨11, 0⟩⟩ : Seg)]
  have hnear : distSqPointSeg ⟨0, 0⟩ ⟨⟨0, 0⟩, ⟨1, 0⟩⟩ ≤ ((1 : ℚ) * 1) ^ 2 := by
    norm_num [distSqPointSeg, distSq, min_def, max_def]
  have hfar : ¬ distSqPointSeg ⟨0, 0⟩ ⟨⟨10, 0⟩, ⟨11, 0⟩⟩ ≤ ((1 : ℚ) * 1) ^ 2 := by
    norm_num [distSqPointSeg, distSq, min_def, max_def]
  refine ⟨(h1.1 _).mpr ⟨List.mem_singleton.mpr rfl, ⟨0, 0⟩,
    List.mem_singleton.mpr rfl, hnear⟩, h2.2 ?_⟩
  intro e he c hc
  rw [List.mem_singleton.mp he, List.mem_singleton.mp hc]
  exact hfar

/-- Updating with an in-budget value preserves the budget invariant. -/
theorem withinBudget_updateDist {D : ℚ} {dist : ℕ → Option ℚ} (h : WithinBudget D dist)
    {v : ℕ} {d : ℚ} (h0 : 0 ≤ d) (hD : d ≤ D) : WithinBudget D (updateDist dist v d) := by
  intro x dx hx
  unfold updateDist at hx
  by_cases hxv : x = v
  · rw [if_pos hxv] at hx
    injection hx with hdd
    subst hdd
    exact ⟨h0, hD⟩
  · rw [if_neg hxv] at hx
    exact h x dx hx

/-- A directed relaxation with nonnegative weight preserves the invariant. -/
theorem withinBudget_relaxDir {D : ℚ} {u v : ℕ} {w : ℚ} {dist : ℕ → Option ℚ}
    (hw : 0 ≤ w) (h : WithinBudget D dist) : WithinBudget D (relaxDir D u v w dist) := by
  unfold relaxDir
  split
  · exact h
  · rename_i du hu
    split
    · rename_i hle
      split
      · exact withinBudget_updateDist h (add_nonneg (h u du hu).1 hw) hle
      · rename_i dv hv
        split
        · exact withinBudget_updateDist h (add_nonneg (h u du hu).1 hw) hle
        · exact h
    · exact h

/-- A full relaxation round over nonnegative-weight edges preserves the
invariant. -/
theorem withinBudget_relaxAll {D : ℚ} {es : List NetEdge}
    (hw : ∀ e ∈ es, 0 ≤ e.w) {dist : ℕ → Option ℚ} (h : WithinBudget D dist) :
    WithinBudget D (relaxAll D es dist) := by
  induction es generalizing dist with
  | nil => exact h
  | cons e es ih =>
      have he : 0 ≤ e.w := hw e (List.mem_cons_self e es)
      have hes : ∀ e' ∈ es, 0 ≤ e'.w := fun e' he' => hw e' (List.mem_cons_of_mem _ he')
      exact ih hes (withinBudget_relaxDir he (withinBudget_relaxDir he h))

/-- Every labelling produced by the search satisfies the budget invariant. -/
theorem withinBudget_search (es : List NetEdge) (seeds : List ℕ) (D : ℚ) (rounds : ℕ)
    (hD : 0 ≤ D) (hw : ∀ e ∈ es, 0 ≤ e.w) :
    WithinBudget D (serviceAreaSearch es seeds D rounds) := by
  induction rounds with
  | zero =>
      intro v d hv
      unfold serviceAreaSearch at hv
      simp only [Function.iterate_zero, id] at hv
      unfold initDist at hv
      by_cases hvs : v ∈ seeds
      · rw [if_pos hvs] at hv
        injection hv with hdd
        subst hdd
        exact ⟨le_refl 0, hD⟩
      · rw [if_neg hvs] at hv
        exact Option.noConfusion hv
  | succ n ih =>
      unfold serviceAreaSearch
      rw [Function.iterate_succ_apply']
      exact withinBudget_relaxAll hw ih

/-- A prefix sum of a nonnegative list is at most the full sum. -/
theorem sum_take_le {l : List ℚ} (hl : ∀ x ∈ l, 0 ≤ x) (i : ℕ) :
    (l.take i).sum ≤ l.sum := by
  conv_rhs => rw [← List.take_append_drop i l]
  rw [List.sum_append]
  have hdrop : 0 ≤ (l.drop i).sum :=
    List.sum_nonneg (fun x hx => hl x (List.drop_subset i l hx))
  linarith

/-- Along a path whose edges all come from the network, cumulative distance
never decreases. -/
theorem pathCumDist_mono (p es : List NetEdge)
    (hsub : ∀ e ∈ p, e ∈ es) (hw : ∀ e ∈ es, 0 ≤ e.w)
    {i j : ℕ} (hij : i ≤ j) : pathCumDist p i ≤ pathCumDist p j := by
  unfold pathCumDist
  have hws : ∀ x ∈ p.map NetEdge.w, 0 ≤ x := by
    intro x hx
    obtain ⟨e, he, rfl⟩ := List.mem_map.mp hx
    exact hw e (hsub e he)
  calc ((p.map NetEdge.w).take i).sum
      = (((p.map NetEdge.w).take j).take i).sum := by
        rw [List.take_take, min_eq_left hij]
    _ ≤ ((p.map NetEdge.w).take j).sum :=
        sum_take_le (fun x hx => hws x (List.take_subset j _ hx)) i

/-- C1: with a nonnegative budget and nonnegative edge weights, every node
labelled by the Service Area Search carries a cumulative distance between 0
and the budget D (no overshoot), and along any path of network edges the
cumulative distance is monotonically non-decreasing. -/
theorem serviceArea_within_budget (es : List NetEdge) (seeds : List ℕ) (D : ℚ)
    (rounds : ℕ) (hD : 0 ≤ D) (hw : ∀ e ∈ es, 0 ≤ e.w) :
    (∀ v d, serviceAreaSearch es seeds D rounds v = some d → 0 ≤ d ∧ d ≤ D) ∧
    (∀ p : List NetEdge, (∀ e ∈ p, e ∈ es) →
      ∀ i j, i ≤ j → pathCumDist p i ≤ pathCumDist p j) :=
  ⟨withinBudget_search es seeds D rounds hD hw,
    fun p hp i j hij => pathCumDist_mono p es hp hw hij⟩

/-- Witness for C1 at a concrete two-edge network with budget 5. -/
theorem serviceArea_within_budget_witness :
    ((0 : ℚ) ≤ 0 ∧ (0 : ℚ) ≤ 5) ∧
    pathCumDist [⟨0, 1, 3⟩] 0 ≤ pathCumDist [⟨0, 1, 3⟩] 1 := by
  have h := serviceArea_within_budget [⟨0, 1, 3⟩, ⟨1, 2, 4⟩] [0] 5 0
    (by norm_num)
    (by
      intro e he
      rcases List.mem_cons.mp he with rfl | he1
      · show (0 : ℚ) ≤ 3
        norm_num
      · rw [List.mem_singleton.mp he1]
        show (0 : ℚ) ≤ 4
        norm_num)
  refine ⟨h.1 0 0 rfl, h.2 [⟨0, 1, 3⟩] ?_ 0 1 (by norm_num)⟩
  intro e he
  rw [List.mem_singleton.mp he]
  exact List.mem_cons_self _ _

end Walkshed
